import Mathlib

/-!
Verification of the PageRank core of `src/pagerank/pagerank.py`.

The Python code is shallowly embedded as follows:
* a corpus (Python `dict` from page to `set` of linked pages) is an association
  list `List (α × List α)`; Python `dict` preserves insertion order and has
  distinct keys, `set`s have distinct elements — where a statement needs these
  facts they appear as `Nodup` hypotheses (`ValidCorpus`);
* floating point numbers are modelled by exact rationals `ℚ`;
* Python exceptions (`KeyError` on a missing dict key, `ZeroDivisionError`,
  `IndexError` from `random.choice` on an empty list, `ValueError` from
  `random.choices` with non-positive total weight) are modelled by `Option`:
  a raised exception is `none`;
* the random source consumed by `sample_pagerank` (`random.choice` /
  `random.choices`) is an explicit stream `rand : Nat → ℚ` of numbers intended
  to lie in `[0, 1)`, one per draw, mirroring `random.random()`;
* the data-dependent `while` loop of `iterate_pagerank` is given explicit fuel;
  `none` means the fuel ran out (or an exception was raised).
-/

set_option linter.unusedSectionVars false

namespace PageRank

variable {α : Type} [DecidableEq α]

/-- A corpus: association list from page to its list of outgoing link targets.
Models the Python `dict` of `set`s built by `crawl`. -/
abbrev Corpus (α : Type) := List (α × List α)

/-- The keys of an association list, in order (`list(d)` / `d.keys()` in Python). -/
def keysOf {β : Type} (l : List (α × β)) : List α :=
  l.map Prod.fst

/-- Dictionary read `d[k]` for rank dictionaries.  Every read performed by the
embedded code hits a present key; the default `0` is never observable there. -/
def lookupD : List (α × ℚ) → α → ℚ
  | [], _ => 0
  | (a, v) :: rest, k => if k = a then v else lookupD rest k

/-- Dictionary read `corpus[page]`: `none` models Python's `KeyError`. -/
def findTargets : Corpus α → α → Option (List α)
  | [], _ => none
  | (a, tgts) :: rest, page => if page = a then some tgts else findTargets rest page

/-- Dictionary write `d[k] = v` for a key already present (the only use in the
source); leaves the order of entries unchanged, like Python. -/
def updateVal : List (α × ℚ) → α → ℚ → List (α × ℚ)
  | [], _, _ => []
  | (a, w) :: rest, k, v => if k = a then (a, v) :: rest else (a, w) :: updateVal rest k v

/-- Python's `abs` on our rationals. -/
def ratAbs (x : ℚ) : ℚ :=
  if x < 0 then -x else x

/-- Python's `sum(list(d.values()))`. -/
def sumValues (l : List (α × ℚ)) : ℚ :=
  (l.map Prod.snd).sum

/-- The data-model invariants of the spec, §3: distinct keys (a `dict`),
each target list is a `set` of keys of the corpus, and no self-loops. -/
def ValidCorpus (corpus : Corpus α) : Prop :=
  (keysOf corpus).Nodup ∧
    ∀ kv ∈ corpus, kv.2.Nodup ∧ (∀ t ∈ kv.2, t ∈ keysOf corpus) ∧ kv.1 ∉ kv.2

instance (corpus : Corpus α) : Decidable (ValidCorpus corpus) := by
  unfold ValidCorpus; infer_instance

/-- Embedding of `transition_model(corpus, page, damping_factor)`.
`corpus[page]` raising `KeyError` is `none`. -/
def transition_model (corpus : Corpus α) (page : α) (damping_factor : ℚ) :
    Option (List (α × ℚ)) :=
  match findTargets corpus page with
  | none => none
  | some tgts =>
    let num_pages := corpus.length
    let num_links := tgts.length
    if num_links = 0 then
      some (corpus.map fun kv => (kv.1, 1 / (corpus.length : ℚ)))
    else
      some (corpus.map fun kv =>
        (kv.1, (1 - damping_factor) / (num_pages : ℚ) +
          if kv.1 ∈ tgts then damping_factor / (num_links : ℚ) else 0))

/-- The loop `for page in new_probabilities: probabilities[page] += new_probabilities[page]`.
In every reachable state the keys of `new` are keys of `probs`. -/
def addInto (probs new : List (α × ℚ)) : List (α × ℚ) :=
  new.foldl (fun a kv => updateVal a kv.1 (lookupD a kv.1 + kv.2)) probs

/-- Python `random.choice(l)`: a uniform pick, realised by the index
`⌊r·len(l)⌋` for a stream value `r ∈ [0,1)`; `none` models the `IndexError`
on an empty list. -/
def choiceUniform (l : List α) (r : ℚ) : Option α :=
  l.get? (⌊r * (l.length : ℚ)⌋).toNat

/-- Walk of the cumulative weights: first entry whose running total exceeds `x`
(the `bisect` step inside Python's `random.choices`). -/
def pickCum (x : ℚ) : ℚ → List (α × ℚ) → Option α
  | _, [] => none
  | acc, (a, w) :: rest => if x < acc + w then some a else pickCum x (acc + w) rest

/-- Python `random.choices(keys, weights=values, k=1)[0]` driven by a stream
value `r ∈ [0,1)`; `none` models the `ValueError` on non-positive total weight. -/
def choicesWeighted (l : List (α × ℚ)) (r : ℚ) : Option α :=
  let total := sumValues l
  if total ≤ 0 then none else pickCum (r * total) 0 l

/-- The `while i < n` loop of `sample_pagerank`: `i` is the step index (the
draw at step `0` is uniform, later draws are weighted by the accumulator),
the second argument counts the remaining iterations. -/
def sampleLoop (corpus : Corpus α) (damping_factor : ℚ) (rand : Nat → ℚ) :
    Nat → Nat → List (α × ℚ) → Option (List (α × ℚ))
  | _, 0, probs => some probs
  | i, k + 1, probs =>
    match
      (if i = 0 then choiceUniform (keysOf probs) (rand i)
       else choicesWeighted probs (rand i)) with
    | none => none
    | some sample_page =>
      match transition_model corpus sample_page damping_factor with
      | none => none
      | some new_probabilities =>
        sampleLoop corpus damping_factor rand (i + 1) k (addInto probs new_probabilities)

/-- Embedding of `sample_pagerank(corpus, damping_factor, n)`.
After the loop, Python divides every entry by `n` (a `ZeroDivisionError` when
`n = 0` and at least one page exists) and then renormalises by the total
(a `ZeroDivisionError` when the total is `0` and at least one page exists). -/
def sample_pagerank (corpus : Corpus α) (damping_factor : ℚ) (n : ℤ)
    (rand : Nat → ℚ) : Option (List (α × ℚ)) :=
  let probabilities : List (α × ℚ) := corpus.map fun kv => (kv.1, 0)
  match sampleLoop corpus damping_factor rand 0 n.toNat probabilities with
  | none => none
  | some probs =>
    if corpus ≠ [] ∧ n = 0 then none
    else
      let probs := probs.map fun kv => (kv.1, kv.2 / (n : ℚ))
      let total := sumValues probs
      if total = 0 ∧ probs ≠ [] then none
      else some (probs.map fun kv => (kv.1, kv.2 / total))

/-- The body of the inner `for extra in corpus` loop of `iterate_pagerank`:
`new_pr = (1 - d)/N + d * prob_total` where `prob_total` accumulates
`probabilities[extra]/len(corpus)` for dangling `extra` and
`probabilities[extra]/len(corpus[extra])` for `extra` linking to `page`. -/
def newRank (corpus : Corpus α) (damping_factor : ℚ) (ranks : List (α × ℚ))
    (page : α) : ℚ :=
  let pages_num := corpus.length
  let prob_total := corpus.foldl
    (fun acc kv =>
      let acc := if kv.2 = [] then acc + lookupD ranks kv.1 / (corpus.length : ℚ) else acc
      if page ∈ kv.2 then acc + lookupD ranks kv.1 / (kv.2.length : ℚ) else acc)
    0
  (1 - damping_factor) / (pages_num : ℚ) + damping_factor * prob_total

/-- One execution of `for page in candidates_list: ...` with the in-place
`candidates_list.remove(page)` of the source.  CPython's list iterator walks by
index, so removing the current element shifts the list and the element that
followed it is not visited in this pass (it stays in the list).  `kept` is the
prefix of the list that the iterator has already passed over (visited or
skipped); the second argument is the remainder still ahead of the iterator.
Returns the surviving candidate list and the updated ranks. -/
def passOnce (corpus : Corpus α) (damping_factor : ℚ) :
    List α → List α → List (α × ℚ) → List α × List (α × ℚ)
  | kept, [], ranks => (kept, ranks)
  | kept, [p], ranks =>
    let new_pr := newRank corpus damping_factor ranks p
    let ranks' := updateVal ranks p new_pr
    if ratAbs (new_pr - lookupD ranks p) < 1 / 1000 then (kept, ranks')
    else (kept ++ [p], ranks')
  | kept, p :: q :: rest, ranks =>
    let new_pr := newRank corpus damping_factor ranks p
    let ranks' := updateVal ranks p new_pr
    if ratAbs (new_pr - lookupD ranks p) < 1 / 1000 then
      passOnce corpus damping_factor (kept ++ [q]) rest ranks'
    else
      passOnce corpus damping_factor (kept ++ [p]) (q :: rest) ranks'

/-- The `while len(candidates_list) > 0` loop of `iterate_pagerank`,
with explicit fuel bounding the number of passes. -/
def iterLoop (corpus : Corpus α) (damping_factor : ℚ) :
    Nat → List α → List (α × ℚ) → Option (List (α × ℚ))
  | 0, cands, ranks => if cands = [] then some ranks else none
  | fuel + 1, cands, ranks =>
    if cands = [] then some ranks
    else
      let s := passOnce corpus damping_factor [] cands ranks
      iterLoop corpus damping_factor fuel s.1 s.2

/-- Embedding of `iterate_pagerank(corpus, damping_factor)`.  An empty corpus
raises `ZeroDivisionError` at `1 / pages_num`; the final renormalisation
raises it when the total is `0`. -/
def iterate_pagerank (corpus : Corpus α) (damping_factor : ℚ) (fuel : Nat) :
    Option (List (α × ℚ)) :=
  if corpus.length = 0 then none
  else
    let initial_prob : ℚ := 1 / (corpus.length : ℚ)
    let probabilities := corpus.map fun kv => (kv.1, initial_prob)
    match iterLoop corpus damping_factor fuel (keysOf corpus) probabilities with
    | none => none
    | some ranks =>
      let total := sumValues ranks
      if total = 0 then none
      else some (ranks.map fun kv => (kv.1, kv.2 / total))

/-! ### State machines written from the spec's words

These definitions follow the natural-language description of the algorithms
(spec §4.2, §4.3) rather than the source; they exist to be compared with the
embeddings above. -/

/-- Follows the claim wording for the iterative estimator: one full pass over
the currently active nodes, in order; each active node's rank is recomputed,
and a node whose change is below the threshold becomes converged — it is
dropped from the active list with its rank frozen.  Every active node is
visited in every pass.  Returns the still-active nodes and the updated ranks. -/
def specPassAll (corpus : Corpus α) (damping_factor : ℚ) :
    List α → List (α × ℚ) → List α × List (α × ℚ)
  | [], ranks => ([], ranks)
  | p :: rest, ranks =>
    let new_pr := newRank corpus damping_factor ranks p
    let ranks' := updateVal ranks p new_pr
    let s := specPassAll corpus damping_factor rest ranks'
    if ratAbs (new_pr - lookupD ranks p) < 1 / 1000 then s
    else (p :: s.1, s.2)

/-- Iterate `specPassAll` until no active nodes remain (fuel-bounded). -/
def specLoopAll (corpus : Corpus α) (damping_factor : ℚ) :
    Nat → List α → List (α × ℚ) → Option (List (α × ℚ))
  | 0, active, ranks => if active = [] then some ranks else none
  | fuel + 1, active, ranks =>
    if active = [] then some ranks
    else
      let s := specPassAll corpus damping_factor active ranks
      specLoopAll corpus damping_factor fuel s.1 s.2

/-- The iterative estimator as the claim describes it: every node starts
active at rank `1/N`, full passes run until no active node remains, then the
distribution is renormalised (spec §4.3). -/
def specIterateAll (corpus : Corpus α) (damping_factor : ℚ) (fuel : Nat) :
    Option (List (α × ℚ)) :=
  if corpus.length = 0 then none
  else
    let ranks0 := corpus.map fun kv => (kv.1, 1 / (corpus.length : ℚ))
    match specLoopAll corpus damping_factor fuel (keysOf corpus) ranks0 with
    | none => none
    | some ranks =>
      let total := sumValues ranks
      if total = 0 then none
      else some (ranks.map fun kv => (kv.1, kv.2 / total))

/-- The amended pass: as `specPassAll`, except that when a node converges and
is removed, the node immediately following it in the active list is skipped
for the remainder of this pass — it stays active (unprocessed) for the next
pass.  This is the observable behaviour of removing from a list during
iteration. -/
def specPassSkip (corpus : Corpus α) (damping_factor : ℚ) :
    List α → List (α × ℚ) → List α × List (α × ℚ)
  | [], ranks => ([], ranks)
  | [p], ranks =>
    let new_pr := newRank corpus damping_factor ranks p
    let ranks' := updateVal ranks p new_pr
    if ratAbs (new_pr - lookupD ranks p) < 1 / 1000 then ([], ranks')
    else ([p], ranks')
  | p :: q :: rest, ranks =>
    let new_pr := newRank corpus damping_factor ranks p
    let ranks' := updateVal ranks p new_pr
    if ratAbs (new_pr - lookupD ranks p) < 1 / 1000 then
      let s := specPassSkip corpus damping_factor rest ranks'
      (q :: s.1, s.2)
    else
      let s := specPassSkip corpus damping_factor (q :: rest) ranks'
      (p :: s.1, s.2)

/-- Iterate `specPassSkip` until no active nodes remain (fuel-bounded). -/
def specLoopSkip (corpus : Corpus α) (damping_factor : ℚ) :
    Nat → List α → List (α × ℚ) → Option (List (α × ℚ))
  | 0, active, ranks => if active = [] then some ranks else none
  | fuel + 1, active, ranks =>
    if active = [] then some ranks
    else
      let s := specPassSkip corpus damping_factor active ranks
      specLoopSkip corpus damping_factor fuel s.1 s.2

/-- The amended iterative estimator: the claim's state machine with the
removal-skip proviso, followed by the renormalisation of spec §4.3. -/
def specIterateSkip (corpus : Corpus α) (damping_factor : ℚ) (fuel : Nat) :
    Option (List (α × ℚ)) :=
  if corpus.length = 0 then none
  else
    let ranks0 := corpus.map fun kv => (kv.1, 1 / (corpus.length : ℚ))
    match specLoopSkip corpus damping_factor fuel (keysOf corpus) ranks0 with
    | none => none
    | some ranks =>
      let total := sumValues ranks
      if total = 0 then none
      else some (ranks.map fun kv => (kv.1, kv.2 / total))

/-- Follows the claim wording for the sampling estimator's loop: the tracked
node is part of the state; each of the remaining iterations computes the
transition distribution of the tracked node, adds all of it into the
accumulator, and — when further iterations remain — draws the next tracked
node by weighted choice over the accumulator's current values. -/
def specSampleLoop (corpus : Corpus α) (damping_factor : ℚ) (rand : Nat → ℚ) :
    Nat → Nat → α → List (α × ℚ) → Option (List (α × ℚ))
  | _, 0, _, probs => some probs
  | t, k + 1, current, probs =>
    match transition_model corpus current damping_factor with
    | none => none
    | some dist =>
      let probs' := addInto probs dist
      match k with
      | 0 => some probs'
      | k' + 1 =>
        match choicesWeighted probs' (rand (t + 1)) with
        | none => none
        | some nxt => specSampleLoop corpus damping_factor rand (t + 1) (k' + 1) nxt probs'

/-- The sampling estimator as the claim describes it: zero accumulator, first
tracked node uniform over all nodes, `sampleCount` iterations of
add-then-draw, then division by `sampleCount` and renormalisation (a division
by a zero total surfaces as an error, per the spec's error taxonomy). -/
def specSampleRank (corpus : Corpus α) (damping_factor : ℚ) (n : ℤ)
    (rand : Nat → ℚ) : Option (List (α × ℚ)) :=
  let accumulator : List (α × ℚ) := corpus.map fun kv => (kv.1, 0)
  match choiceUniform (keysOf accumulator) (rand 0) with
  | none => none
  | some first =>
    match specSampleLoop corpus damping_factor rand 0 n.toNat first accumulator with
    | none => none
    | some probs =>
      let probs := probs.map fun kv => (kv.1, kv.2 / (n : ℚ))
      let total := sumValues probs
      if total = 0 ∧ probs ≠ [] then none
      else some (probs.map fun kv => (kv.1, kv.2 / total))

/-- Concrete corpus exhibiting the divergence between the source's pass
(removal skips the following node) and a full pass over every active node. -/
def C1corpus : Corpus ℕ := [(0, []), (1, [2]), (2, [0, 1])]

/-! ### Helper lemmas -/

@[simp]
theorem sumValues_nil : sumValues ([] : List (α × ℚ)) = 0 := rfl

@[simp]
theorem sumValues_cons (a : α) (v : ℚ) (l : List (α × ℚ)) :
    sumValues ((a, v) :: l) = v + sumValues l := rfl

@[simp]
theorem keysOf_nil {β : Type} : keysOf ([] : List (α × β)) = [] := rfl

@[simp]
theorem keysOf_cons {β : Type} (a : α) (b : β) (l : List (α × β)) :
    keysOf ((a, b) :: l) = a :: keysOf l := rfl

theorem keysOf_map_snd {β γ : Type} (l : List (α × β)) (f : α × β → γ) :
    keysOf (l.map fun kv => (kv.1, f kv)) = keysOf l := by
  simp [keysOf, List.map_map, Function.comp]

theorem keysOf_updateVal (l : List (α × ℚ)) (k : α) (v : ℚ) :
    keysOf (updateVal l k v) = keysOf l := by
  induction l with
  | nil => rfl
  | cons kv rest ih =>
    obtain ⟨a, w⟩ := kv
    by_cases h : k = a <;> simp [updateVal, h, ih]

theorem lookupD_map_key {β : Type} (l : List (α × β)) (g : α → ℚ) (p : α) :
    lookupD (l.map fun kv => (kv.1, g kv.1)) p = if p ∈ keysOf l then g p else 0 := by
  induction l with
  | nil => simp [lookupD]
  | cons kv rest ih =>
    by_cases h : p = kv.1
    · simp [lookupD, keysOf, h]
    · by_cases hm : p ∈ keysOf rest
      · have hm' : p ∈ List.map Prod.fst rest := hm
        simp only [List.map_cons, lookupD, if_neg h, ih, keysOf]
        rw [if_pos hm', if_pos (List.mem_cons_of_mem _ hm')]
      · simp only [List.map_cons, lookupD, if_neg h, ih, if_neg hm]
        rw [if_neg]
        intro hc
        rcases List.mem_cons.mp hc with hc | hc
        · exact h hc
        · exact hm hc

theorem sumValues_updateVal (l : List (α × ℚ)) (k : α) (v : ℚ)
    (h : k ∈ keysOf l) :
    sumValues (updateVal l k v) = sumValues l - lookupD l k + v := by
  induction l with
  | nil => simp [keysOf] at h
  | cons kv rest ih =>
    obtain ⟨a, w⟩ := kv
    by_cases hk : k = a
    · simp [updateVal, lookupD, hk]
      ring
    · have hmem : k ∈ keysOf rest := by
        simpa [keysOf, hk] using h
      simp [updateVal, lookupD, hk, ih hmem]
      ring

theorem keysOf_addInto (probs new : List (α × ℚ)) :
    keysOf (addInto probs new) = keysOf probs := by
  induction new generalizing probs with
  | nil => rfl
  | cons kv rest ih =>
    show keysOf (addInto (updateVal probs kv.1 (lookupD probs kv.1 + kv.2)) rest) = _
    rw [ih, keysOf_updateVal]

theorem sumValues_addInto (probs new : List (α × ℚ))
    (h : ∀ k ∈ keysOf new, k ∈ keysOf probs) :
    sumValues (addInto probs new) = sumValues probs + sumValues new := by
  induction new generalizing probs with
  | nil => simp [addInto]
  | cons kv rest ih =>
    obtain ⟨a, v⟩ := kv
    have ha : a ∈ keysOf probs := h a (by simp [keysOf])
    have hrest : ∀ k ∈ keysOf rest, k ∈ keysOf (updateVal probs a (lookupD probs a + v)) := by
      intro k hk
      rw [keysOf_updateVal]
      exact h k (by simp [keysOf] at hk ⊢; exact Or.inr hk)
    show sumValues (addInto (updateVal probs a (lookupD probs a + v)) rest) = _
    rw [ih _ hrest, sumValues_updateVal _ _ _ ha]
    simp
    ring

theorem sumValues_map_div (l : List (α × ℚ)) (c : ℚ) :
    sumValues (l.map fun kv => (kv.1, kv.2 / c)) = sumValues l / c := by
  induction l with
  | nil => simp
  | cons kv rest ih =>
    obtain ⟨a, v⟩ := kv
    simp [ih]
    ring

theorem findTargets_eq_none_iff (corpus : Corpus α) (page : α) :
    findTargets corpus page = none ↔ page ∉ keysOf corpus := by
  induction corpus with
  | nil => simp [findTargets, keysOf]
  | cons kv rest ih =>
    obtain ⟨a, tgts⟩ := kv
    by_cases h : page = a <;> simp [findTargets, keysOf, h, ih]

theorem findTargets_mem (corpus : Corpus α) (page : α) (tgts : List α)
    (h : findTargets corpus page = some tgts) : (page, tgts) ∈ corpus := by
  induction corpus with
  | nil => simp [findTargets] at h
  | cons kv rest ih =>
    obtain ⟨a, t⟩ := kv
    by_cases ha : page = a
    · subst ha
      simp [findTargets] at h
      simp [h]
    · simp [findTargets, ha] at h
      simp [ih h]

theorem transition_model_eq_none_iff (corpus : Corpus α) (page : α) (d : ℚ) :
    transition_model corpus page d = none ↔ page ∉ keysOf corpus := by
  rw [← findTargets_eq_none_iff]
  unfold transition_model
  cases h : findTargets corpus page with
  | none => simp
  | some tgts =>
    by_cases ht : tgts.length = 0 <;> simp [ht]

theorem countP_mem_eq_length (l t : List α) (hl : l.Nodup) (ht : t.Nodup)
    (hsub : ∀ x ∈ t, x ∈ l) :
    (l.countP fun a => decide (a ∈ t)) = t.length := by
  rw [List.countP_eq_length_filter]
  have hperm : List.Perm (l.filter fun a => decide (a ∈ t)) t := by
    rw [List.perm_ext_iff_of_nodup (hl.filter _) ht]
    intro a
    simp only [List.mem_filter, decide_eq_true_eq]
    exact ⟨fun h => h.2, fun h => ⟨hsub a h, h⟩⟩
  exact hperm.length_eq

theorem sumValues_map_const {β : Type} (l : List (α × β)) (c : ℚ) :
    sumValues (l.map fun kv => (kv.1, c)) = (l.length : ℚ) * c := by
  induction l with
  | nil => simp
  | cons kv rest ih =>
    simp [ih]
    ring

theorem sumValues_map_base_ite {β : Type} (l : List (α × β)) (tgts : List α)
    (a b : ℚ) :
    sumValues (l.map fun kv => (kv.1, a + if kv.1 ∈ tgts then b else 0)) =
      (l.length : ℚ) * a +
        (((keysOf l).countP fun k => decide (k ∈ tgts) : ℕ) : ℚ) * b := by
  induction l with
  | nil => simp
  | cons kv rest ih =>
    by_cases h : kv.1 ∈ tgts <;>
      simp [keysOf, List.countP_cons, h, ih] <;> push_cast <;> ring

/-- The distribution returned by `transition_model` sums to exactly `1` in
exact arithmetic, given the data-model invariants. -/
theorem sumValues_transition_model (corpus : Corpus α) (page : α) (tgts : List α)
    (d : ℚ) (hne : corpus ≠ []) (hkeys : (keysOf corpus).Nodup)
    (ht : findTargets corpus page = some tgts) (htn : tgts.Nodup)
    (hsub : ∀ x ∈ tgts, x ∈ keysOf corpus) (res : List (α × ℚ))
    (h : transition_model corpus page d = some res) :
    sumValues res = 1 := by
  have hN : ((corpus.length : ℕ) : ℚ) ≠ 0 :=
    Nat.cast_ne_zero.mpr (Nat.pos_iff_ne_zero.mp (List.length_pos.mpr hne))
  have hklen : (keysOf corpus).length = corpus.length := List.length_map _ _
  unfold transition_model at h
  simp only [ht] at h
  by_cases hlen : tgts.length = 0
  · rw [if_pos hlen, Option.some.injEq] at h
    subst h
    rw [sumValues_map_const]
    field_simp
  · have hL : ((tgts.length : ℕ) : ℚ) ≠ 0 := by exact_mod_cast hlen
    rw [if_neg hlen, Option.some.injEq] at h
    subst h
    rw [sumValues_map_base_ite, countP_mem_eq_length _ _ hkeys htn hsub]
    field_simp

theorem choiceUniform_mem (l : List α) (r : ℚ) (p : α)
    (h : choiceUniform l r = some p) : p ∈ l := by
  unfold choiceUniform at h
  exact List.get?_mem h

theorem pickCum_mem (x : ℚ) (acc : ℚ) (l : List (α × ℚ)) (p : α)
    (h : pickCum x acc l = some p) : p ∈ keysOf l := by
  induction l generalizing acc with
  | nil => simp [pickCum] at h
  | cons kv rest ih =>
    obtain ⟨a, w⟩ := kv
    by_cases hc : x < acc + w
    · simp only [pickCum, if_pos hc, Option.some.injEq] at h
      simp [keysOf, h]
    · simp only [pickCum, if_neg hc] at h
      simp only [keysOf_cons, List.mem_cons]
      exact Or.inr (ih _ h)

theorem choicesWeighted_mem (l : List (α × ℚ)) (r : ℚ) (p : α)
    (h : choicesWeighted l r = some p) : p ∈ keysOf l := by
  unfold choicesWeighted at h
  by_cases hc : sumValues l ≤ 0
  · simp [hc] at h
  · simp only [if_neg hc] at h
    exact pickCum_mem _ _ _ _ h

theorem sampleLoop_keys (corpus : Corpus α) (d : ℚ) (rand : Nat → ℚ)
    (k i : Nat) (probs res : List (α × ℚ))
    (h : sampleLoop corpus d rand i k probs = some res) :
    keysOf res = keysOf probs := by
  induction k generalizing i probs with
  | zero =>
    simp only [sampleLoop, Option.some.injEq] at h
    rw [h]
  | succ k ih =>
    rw [sampleLoop] at h
    split at h
    · exact absurd h (by simp)
    · split at h
      · exact absurd h (by simp)
      · rw [ih _ _ h, keysOf_addInto]

theorem passOnce_keys (corpus : Corpus α) (d : ℚ) :
    ∀ (rest kept : List α) (ranks : List (α × ℚ)),
      keysOf (passOnce corpus d kept rest ranks).2 = keysOf ranks
  | [], _, _ => rfl
  | [p], kept, ranks => by
    simp only [passOnce]
    by_cases h : ratAbs (newRank corpus d ranks p - lookupD ranks p) < 1 / 1000
    · rw [if_pos h]
      exact keysOf_updateVal _ _ _
    · rw [if_neg h]
      exact keysOf_updateVal _ _ _
  | p :: q :: rest, kept, ranks => by
    simp only [passOnce]
    by_cases h : ratAbs (newRank corpus d ranks p - lookupD ranks p) < 1 / 1000
    · rw [if_pos h, passOnce_keys corpus d rest _ _, keysOf_updateVal]
    · rw [if_neg h, passOnce_keys corpus d (q :: rest) _ _, keysOf_updateVal]

theorem iterLoop_nil (corpus : Corpus α) (d : ℚ) (fuel : Nat)
    (ranks : List (α × ℚ)) :
    iterLoop corpus d fuel [] ranks = some ranks := by
  cases fuel <;> simp [iterLoop]

theorem iterLoop_keys (corpus : Corpus α) (d : ℚ) (fuel : Nat)
    (cands : List α) (ranks res : List (α × ℚ))
    (h : iterLoop corpus d fuel cands ranks = some res) :
    keysOf res = keysOf ranks := by
  induction fuel generalizing cands ranks with
  | zero =>
    rw [iterLoop] at h
    by_cases hc : cands = []
    · rw [if_pos hc, Option.some.injEq] at h
      rw [h]
    · rw [if_neg hc] at h
      exact absurd h (by simp)
  | succ fuel ih =>
    rw [iterLoop] at h
    by_cases hc : cands = []
    · rw [if_pos hc, Option.some.injEq] at h
      rw [h]
    · rw [if_neg hc] at h
      rw [ih _ _ h, passOnce_keys]

theorem iterLoop_mono (corpus : Corpus α) (d : ℚ) (f f' : Nat)
    (cands : List α) (ranks res : List (α × ℚ)) (hle : f ≤ f')
    (h : iterLoop corpus d f cands ranks = some res) :
    iterLoop corpus d f' cands ranks = some res := by
  induction f generalizing f' cands ranks with
  | zero =>
    rw [iterLoop] at h
    by_cases hc : cands = []
    · rw [if_pos hc, Option.some.injEq] at h
      rw [hc, iterLoop_nil, h]
    · rw [if_neg hc] at h
      exact absurd h (by simp)
  | succ f ih =>
    rw [iterLoop] at h
    by_cases hc : cands = []
    · rw [if_pos hc, Option.some.injEq] at h
      rw [hc, iterLoop_nil, h]
    · obtain ⟨f'', rfl⟩ : ∃ f'', f' = f'' + 1 :=
        ⟨f' - 1, by omega⟩
      rw [if_neg hc] at h
      rw [iterLoop, if_neg hc]
      exact ih f'' _ _ (by omega) h

theorem passOnce_eq_skip (corpus : Corpus α) (d : ℚ) :
    ∀ (rest kept : List α) (ranks : List (α × ℚ)),
      passOnce corpus d kept rest ranks =
        (kept ++ (specPassSkip corpus d rest ranks).1,
          (specPassSkip corpus d rest ranks).2)
  | [], kept, ranks => by simp [passOnce, specPassSkip]
  | [p], kept, ranks => by
    simp only [passOnce, specPassSkip]
    by_cases h : ratAbs (newRank corpus d ranks p - lookupD ranks p) < 1 / 1000
    · rw [if_pos h, if_pos h]
      simp
    · rw [if_neg h, if_neg h]
  | p :: q :: rest, kept, ranks => by
    simp only [passOnce, specPassSkip]
    by_cases h : ratAbs (newRank corpus d ranks p - lookupD ranks p) < 1 / 1000
    · rw [if_pos h, if_pos h,
        passOnce_eq_skip corpus d rest (kept ++ [q]) (updateVal ranks p (newRank corpus d ranks p))]
      simp
    · rw [if_neg h, if_neg h,
        passOnce_eq_skip corpus d (q :: rest) (kept ++ [p]) (updateVal ranks p (newRank corpus d ranks p))]
      simp

theorem iterLoop_eq_specLoopSkip (corpus : Corpus α) (d : ℚ) :
    ∀ (fuel : Nat) (cands : List α) (ranks : List (α × ℚ)),
      iterLoop corpus d fuel cands ranks = specLoopSkip corpus d fuel cands ranks := by
  intro fuel
  induction fuel with
  | zero => intro cands ranks; rfl
  | succ fuel ih =>
    intro cands ranks
    rw [iterLoop, specLoopSkip]
    by_cases hc : cands = []
    · rw [if_pos hc, if_pos hc]
    · rw [if_neg hc, if_neg hc, passOnce_eq_skip]
      simp only [List.nil_append]
      exact ih _ _

theorem specSampleLoop_eq_sampleLoop (corpus : Corpus α) (d : ℚ) (rand : Nat → ℚ) :
    ∀ (k t : Nat) (current : α) (probs : List (α × ℚ)),
      specSampleLoop corpus d rand t (k + 1) current probs =
        match transition_model corpus current d with
        | none => none
        | some dist => sampleLoop corpus d rand (t + 1) k (addInto probs dist) := by
  intro k
  induction k with
  | zero =>
    intro t current probs
    rw [specSampleLoop]
    cases transition_model corpus current d with
    | none => rfl
    | some dist => simp [sampleLoop]
  | succ k ih =>
    intro t current probs
    rw [specSampleLoop]
    cases htr : transition_model corpus current d with
    | none => simp only [htr]
    | some dist =>
      have hR : sampleLoop corpus d rand (t + 1) (k + 1) (addInto probs dist) =
          match choicesWeighted (addInto probs dist) (rand (t + 1)) with
          | none => none
          | some page =>
            match transition_model corpus page d with
            | none => none
            | some new =>
              sampleLoop corpus d rand (t + 2) k (addInto (addInto probs dist) new) := by
        rw [sampleLoop]
        rw [if_neg (Nat.succ_ne_zero t)]
      simp only [htr, hR]
      cases hw : choicesWeighted (addInto probs dist) (rand (t + 1)) with
      | none => simp only [hw]
      | some nxt =>
        simp only [hw, ih (t + 1) nxt (addInto probs dist)]

theorem lookupD_map_const {β : Type} (l : List (α × β)) (c : ℚ) (p : α) :
    lookupD (l.map fun kv => (kv.1, c)) p = if p ∈ keysOf l then c else 0 :=
  lookupD_map_key l (fun _ => c) p

theorem lookupD_map_base_ite {β : Type} (l : List (α × β)) (tgts : List α)
    (a b : ℚ) (p : α) :
    lookupD (l.map fun kv => (kv.1, a + if kv.1 ∈ tgts then b else 0)) p =
      if p ∈ keysOf l then a + (if p ∈ tgts then b else 0) else 0 :=
  lookupD_map_key l (fun k => a + if k ∈ tgts then b else 0) p

/-- Pointwise description of the distribution built by `transition_model`. -/
theorem transition_model_lookup (corpus : Corpus α) (page : α) (tgts : List α)
    (d : ℚ) (ht : findTargets corpus page = some tgts) :
    ∃ res, transition_model corpus page d = some res ∧
      ∀ p ∈ keysOf corpus,
        lookupD res p =
          if tgts = [] then 1 / (corpus.length : ℚ)
          else (1 - d) / (corpus.length : ℚ) +
            (if p ∈ tgts then d / (tgts.length : ℚ) else 0) := by
  unfold transition_model
  simp only [ht]
  by_cases hlen : tgts.length = 0
  · have htnil : tgts = [] := List.length_eq_zero.mp hlen
    rw [if_pos hlen]
    refine ⟨_, rfl, ?_⟩
    intro p hp
    rw [lookupD_map_const, if_pos hp, if_pos htnil]
  · have htnil : ¬tgts = [] := by
      intro hcon
      exact hlen (by simp [hcon])
    rw [if_neg hlen]
    refine ⟨_, rfl, ?_⟩
    intro p hp
    rw [lookupD_map_base_ite, if_pos hp, if_neg htnil]

theorem keysOf_eq_nil_iff {β : Type} (l : List (α × β)) :
    keysOf l = [] ↔ l = [] := by
  cases l <;> simp [keysOf]

theorem findTargets_mem_keys (corpus : Corpus α) (page : α) (tgts : List α)
    (ht : findTargets corpus page = some tgts) : page ∈ keysOf corpus := by
  have := findTargets_mem corpus page tgts ht
  exact List.mem_map_of_mem Prod.fst this

/-- Runs of `iterate_pagerank` that return a result agree across fuels. -/
theorem iterate_pagerank_fuel_agree (corpus : Corpus α) (d : ℚ) (f1 f2 : Nat)
    (r1 r2 : List (α × ℚ)) (hle : f1 ≤ f2)
    (h1 : iterate_pagerank corpus d f1 = some r1)
    (h2 : iterate_pagerank corpus d f2 = some r2) : r1 = r2 := by
  unfold iterate_pagerank at h1 h2
  by_cases hlen : corpus.length = 0
  · rw [if_pos hlen] at h1
    exact absurd h1 (by simp)
  · rw [if_neg hlen] at h1 h2
    cases hl1 : iterLoop corpus d f1 (keysOf corpus)
        (corpus.map fun kv => (kv.1, 1 / (corpus.length : ℚ))) with
    | none =>
      simp only [hl1] at h1
      exact absurd h1 (by simp)
    | some l1 =>
      have hl2 : iterLoop corpus d f2 (keysOf corpus)
          (corpus.map fun kv => (kv.1, 1 / (corpus.length : ℚ))) = some l1 :=
        iterLoop_mono corpus d f1 f2 _ _ _ hle hl1
      simp only [hl1] at h1
      simp only [hl2] at h2
      by_cases ht : sumValues l1 = 0
      · rw [if_pos ht] at h1
        exact absurd h1 (by simp)
      · rw [if_neg ht] at h1 h2
        injection h1 with h1
        injection h2 with h2
        rw [← h1, ← h2]

/-! ### Claim theorems -/

/-- C2: for every non-empty graph, every currentNode that is a key of the
graph (equivalently: whose target list is found), and every damping factor in
`[0,1]`, `transition_model` returns the uniform distribution `1/N` on every
node when the current node is dangling — independently of the damping factor —
and otherwise assigns `(1-d)/N + d/L` to targets and `(1-d)/N` to all other
nodes. -/
theorem C2_transition_model_formula (corpus : Corpus α) (page : α)
    (tgts : List α) (d : ℚ) (hne : corpus ≠ [])
    (ht : findTargets corpus page = some tgts) (hd0 : 0 ≤ d) (hd1 : d ≤ 1) :
    ∃ res, transition_model corpus page d = some res ∧
      ∀ p ∈ keysOf corpus,
        lookupD res p =
          if tgts = [] then 1 / (corpus.length : ℚ)
          else (1 - d) / (corpus.length : ℚ) +
            (if p ∈ tgts then d / (tgts.length : ℚ) else 0) :=
  transition_model_lookup corpus page tgts d ht

/-- C2 witness: the formula evaluated on the two-node cycle. -/
theorem C2_transition_model_formula_witness :
    ∃ res, transition_model ([(0, [1]), (1, [0])] : Corpus ℕ) 0 (17/20) = some res ∧
      ∀ p ∈ keysOf ([(0, [1]), (1, [0])] : Corpus ℕ),
        lookupD res p =
          if ([1] : List ℕ) = [] then 1 / ((([(0, [1]), (1, [0])] : Corpus ℕ)).length : ℚ)
          else (1 - 17/20) / ((([(0, [1]), (1, [0])] : Corpus ℕ)).length : ℚ) +
            (if p ∈ ([1] : List ℕ) then (17/20) / ((([1] : List ℕ)).length : ℚ) else 0) :=
  C2_transition_model_formula _ _ _ _ (by decide) (by rfl) (by norm_num) (by norm_num)

/-- C5 counterexample: at damping factor `1` — inside the claimed range
`[0,1]` — the node `0` of the two-node cycle gets transition probability `0`
from itself, so the returned distribution is not strictly positive
everywhere. -/
theorem C5_counterexample :
    ∃ res, transition_model ([(0, [1]), (1, [0])] : Corpus ℕ) 0 1 = some res ∧
      0 ∈ keysOf ([(0, [1]), (1, [0])] : Corpus ℕ) ∧ ¬ (0 : ℚ) < lookupD res 0 := by
  refine ⟨[(0, 0), (1, 1)], ?_, by decide, by norm_num [lookupD]⟩
  norm_num [transition_model, findTargets]

/-- C5 (amended): the distribution returned by `transition_model` sums to
exactly `1`; it is strictly positive at every node provided the damping
factor is strictly below `1` or the current node is dangling (at damping
factor exactly `1`, nodes that are not targets of a non-dangling current node
receive probability `0`). -/
theorem C5_amended_sum_one_and_positivity (corpus : Corpus α) (page : α)
    (tgts : List α) (d : ℚ) (hv : ValidCorpus corpus) (hne : corpus ≠ [])
    (ht : findTargets corpus page = some tgts) (hd0 : 0 ≤ d) (hd1 : d ≤ 1) :
    ∃ res, transition_model corpus page d = some res ∧ sumValues res = 1 ∧
      ((d < 1 ∨ tgts = []) → ∀ p ∈ keysOf corpus, 0 < lookupD res p) := by
  obtain ⟨hkeys, hall⟩ := hv
  obtain ⟨htn, hsub, -⟩ := hall _ (findTargets_mem corpus page tgts ht)
  obtain ⟨res, hres, hform⟩ := transition_model_lookup corpus page tgts d ht
  have hNpos : (0 : ℚ) < (corpus.length : ℚ) := by
    exact_mod_cast List.length_pos.mpr hne
  refine ⟨res, hres,
    sumValues_transition_model corpus page tgts d hne hkeys ht htn hsub res hres, ?_⟩
  intro hcase p hp
  rw [hform p hp]
  by_cases htnil : tgts = []
  · rw [if_pos htnil]
    positivity
  · have hd1' : d < 1 := hcase.resolve_right htnil
    have hLpos : (0 : ℚ) < (tgts.length : ℚ) := by
      exact_mod_cast List.length_pos.mpr htnil
    rw [if_neg htnil]
    have hbase : (0 : ℚ) < (1 - d) / (corpus.length : ℚ) := by
      apply div_pos
      · linarith
      · exact hNpos
    have hextra : (0 : ℚ) ≤ if p ∈ tgts then d / (tgts.length : ℚ) else 0 := by
      by_cases hmem : p ∈ tgts
      · rw [if_pos hmem]
        positivity
      · rw [if_neg hmem]
    linarith

/-- C5 amended witness: the two-node cycle at damping factor `17/20`. -/
theorem C5_amended_sum_one_and_positivity_witness :
    ∃ res, transition_model ([(0, [1]), (1, [0])] : Corpus ℕ) 0 (17/20) = some res ∧
      sumValues res = 1 ∧
      (((17 : ℚ)/20 < 1 ∨ ([1] : List ℕ) = []) →
        ∀ p ∈ keysOf ([(0, [1]), (1, [0])] : Corpus ℕ), 0 < lookupD res p) :=
  C5_amended_sum_one_and_positivity _ _ _ _ (by decide) (by decide) (by rfl)
    (by norm_num) (by norm_num)

/-- C7: `iterate_pagerank` is deterministic as a two-run statement — two
calls on the same graph and damping factor that both produce a result produce
the same result.  In this embedding the function is pure (no hidden mutable
state), and the result does not depend on the fuel bound used for the loop. -/
theorem C7_iterate_pagerank_deterministic (corpus : Corpus α) (d : ℚ)
    (f1 f2 : Nat) (r1 r2 : List (α × ℚ))
    (h1 : iterate_pagerank corpus d f1 = some r1)
    (h2 : iterate_pagerank corpus d f2 = some r2) : r1 = r2 := by
  rcases le_total f1 f2 with hle | hle
  · exact iterate_pagerank_fuel_agree corpus d f1 f2 r1 r2 hle h1 h2
  · exact (iterate_pagerank_fuel_agree corpus d f2 f1 r2 r1 hle h2 h1).symm

/-- C8: `transition_model` fails (the `KeyError` of `corpus[page]`, surfaced
to the caller as `none`) whenever the current node is not a key of the graph
— in particular whenever the graph is empty. -/
theorem C8_transition_model_error (corpus : Corpus α) (page : α) (d : ℚ)
    (h : page ∉ keysOf corpus ∨ corpus = []) :
    transition_model corpus page d = none := by
  rcases h with h | h
  · rw [transition_model_eq_none_iff]
    exact h
  · subst h
    rfl

/-- C8 witness: looking up a node absent from the two-node cycle fails. -/
theorem C8_transition_model_error_witness :
    transition_model ([(0, [1]), (1, [0])] : Corpus ℕ) 5 (17/20) = none :=
  C8_transition_model_error _ _ _ (Or.inl (by decide))

/-- C9 counterexample: with an empty graph and `sampleCount = 0` — a case the
claim says must fail — `sample_pagerank` raises nothing and returns the empty
distribution: with no pages, neither division loop executes. -/
theorem C9_counterexample :
    sample_pagerank ([] : Corpus ℕ) (17/20) 0 (fun _ => 0) = some [] := by
  rfl

/-- C9 (amended): `sample_pagerank` fails whenever the graph is non-empty and
`sampleCount ≤ 0` (a `ZeroDivisionError`), or the graph is empty and
`sampleCount > 0` (an `IndexError` from drawing out of no pages); but when
the graph is empty and `sampleCount ≤ 0` it silently returns the empty
distribution instead of failing. -/
theorem C9_amended_failure_condition (corpus : Corpus α) (d : ℚ) (n : ℤ)
    (rand : Nat → ℚ) (h : n ≤ 0 ∨ corpus = []) :
    sample_pagerank corpus d n rand =
      if corpus = [] ∧ n ≤ 0 then some [] else none := by
  by_cases hc : corpus = []
  · subst hc
    by_cases hn : n ≤ 0
    · have h0 : n.toNat = 0 := Int.toNat_of_nonpos hn
      simp [sample_pagerank, h0, sampleLoop, hn]
    · obtain ⟨k, hk⟩ : ∃ k, n.toNat = k + 1 := ⟨n.toNat - 1, by omega⟩
      simp [sample_pagerank, hk, sampleLoop, choiceUniform, keysOf, hn]
  · have hn : n ≤ 0 := h.resolve_right hc
    have h0 : n.toNat = 0 := Int.toNat_of_nonpos hn
    by_cases hn0 : n = 0
    · simp [sample_pagerank, h0, sampleLoop, hc, hn0, hn]
    · have hsum0 : sumValues ((corpus.map fun kv => (kv.1, (0 : ℚ))).map
          fun kv => (kv.1, kv.2 / (n : ℚ))) = 0 := by
        rw [sumValues_map_div]
        have : sumValues (corpus.map fun kv => (kv.1, (0 : ℚ))) = 0 := by
          rw [sumValues_map_const]
          ring
        rw [this]
        exact zero_div _
      rw [List.map_map] at hsum0
      simp [sample_pagerank, h0, sampleLoop, hc, hn0, hn, hsum0]

/-- C9 amended witness: negative sample count on the two-node cycle fails. -/
theorem C9_amended_failure_condition_witness :
    sample_pagerank ([(0, [1]), (1, [0])] : Corpus ℕ) (17/20) (-1) (fun _ => 0) = none := by
  have h := C9_amended_failure_condition ([(0, [1]), (1, [0])] : Corpus ℕ) (17/20)
    (-1) (fun _ => 0) (Or.inl (by norm_num))
  simpa using h

/-- C10: for every non-empty graph, the mappings returned by
`transition_model`, `sample_pagerank` and `iterate_pagerank` have exactly the
graph's key list as their key list (same keys, same order — no key is ever
added or dropped). -/
theorem C10_result_key_sets (corpus : Corpus α) (hne : corpus ≠ []) :
    (∀ (page : α) (d : ℚ) (res : List (α × ℚ)),
        transition_model corpus page d = some res → keysOf res = keysOf corpus) ∧
    (∀ (d : ℚ) (n : ℤ) (rand : Nat → ℚ) (res : List (α × ℚ)),
        sample_pagerank corpus d n rand = some res → keysOf res = keysOf corpus) ∧
    (∀ (d : ℚ) (fuel : Nat) (res : List (α × ℚ)),
        iterate_pagerank corpus d fuel = some res → keysOf res = keysOf corpus) := by
  refine ⟨?_, ?_, ?_⟩
  · intro page d res h
    unfold transition_model at h
    cases ht : findTargets corpus page with
    | none =>
      simp only [ht] at h
      exact absurd h (by simp)
    | some tgts =>
      simp only [ht] at h
      by_cases hlen : tgts.length = 0
      · rw [if_pos hlen, Option.some.injEq] at h
        subst h
        exact keysOf_map_snd _ _
      · rw [if_neg hlen, Option.some.injEq] at h
        subst h
        exact keysOf_map_snd _ _
  · intro d n rand res h
    unfold sample_pagerank at h
    cases hloop : sampleLoop corpus d rand 0 n.toNat
        (corpus.map fun kv => (kv.1, (0 : ℚ))) with
    | none =>
      simp only [hloop] at h
      exact absurd h (by simp)
    | some probs =>
      simp only [hloop] at h
      have hkeys : keysOf probs = keysOf corpus := by
        rw [sampleLoop_keys corpus d rand _ _ _ _ hloop, keysOf_map_snd]
      by_cases hg1 : corpus ≠ [] ∧ n = 0
      · rw [if_pos hg1] at h
        exact absurd h (by simp)
      · rw [if_neg hg1] at h
        by_cases hg2 : sumValues (probs.map fun kv => (kv.1, kv.2 / (n : ℚ))) = 0 ∧
            (probs.map fun kv => (kv.1, kv.2 / (n : ℚ))) ≠ []
        · rw [if_pos hg2] at h
          exact absurd h (by simp)
        · rw [if_neg hg2, Option.some.injEq] at h
          subst h
          rw [keysOf_map_snd, keysOf_map_snd]
          exact hkeys
  · intro d fuel res h
    unfold iterate_pagerank at h
    by_cases hlen : corpus.length = 0
    · rw [if_pos hlen] at h
      exact absurd h (by simp)
    · rw [if_neg hlen] at h
      cases hloop : iterLoop corpus d fuel (keysOf corpus)
          (corpus.map fun kv => (kv.1, 1 / (corpus.length : ℚ))) with
      | none =>
        simp only [hloop] at h
        exact absurd h (by simp)
      | some ranks =>
        simp only [hloop] at h
        by_cases ht : sumValues ranks = 0
        · rw [if_pos ht] at h
          exact absurd h (by simp)
        · rw [if_neg ht, Option.some.injEq] at h
          subst h
          rw [keysOf_map_snd, iterLoop_keys corpus d fuel _ _ _ hloop, keysOf_map_snd]

/-- C10 witness: key lists of all three results on the two-node cycle. -/
theorem C10_result_key_sets_witness :
    keysOf ((transition_model ([(0, [1]), (1, [0])] : Corpus ℕ) 0 (17/20)).getD []) = [0, 1] ∧
    keysOf ((sample_pagerank ([(0, [1]), (1, [0])] : Corpus ℕ) (17/20) 1 (fun _ => 0)).getD []) = [0, 1] ∧
    keysOf ((iterate_pagerank ([(0, [1]), (1, [0])] : Corpus ℕ) (17/20) 3).getD []) = [0, 1] := by
  obtain ⟨h1, h2, h3⟩ := C10_result_key_sets ([(0, [1]), (1, [0])] : Corpus ℕ) (by decide)
  have e1 : transition_model ([(0, [1]), (1, [0])] : Corpus ℕ) 0 (17/20) =
      some [(0, 3/40), (1, 37/40)] := by
    norm_num [transition_model, findTargets]
  have e2 : sample_pagerank ([(0, [1]), (1, [0])] : Corpus ℕ) (17/20) 1 (fun _ => 0) =
      some [(0, 3/40), (1, 37/40)] := by
    norm_num [sample_pagerank, sampleLoop, choiceUniform, keysOf, transition_model,
      findTargets, addInto, updateVal, lookupD, sumValues, Int.floor_zero]
  have e3 : iterate_pagerank ([(0, [1]), (1, [0])] : Corpus ℕ) (17/20) 3 =
      some [(0, 1/2), (1, 1/2)] := by
    norm_num [iterate_pagerank, iterLoop, passOnce, newRank, lookupD, updateVal,
      ratAbs, keysOf, sumValues, List.cons_ne_nil]
  refine ⟨?_, ?_, ?_⟩
  · rw [e1]
    simpa using h1 0 (17/20) _ e1
  · rw [e2]
    simpa using h2 (17/20) 1 (fun _ => 0) _ e2
  · rw [e3]
    simpa using h3 (17/20) 3 _ e3

/-- C7 witness: two runs with different fuel bounds agree on the two-node
cycle. -/
theorem C7_iterate_pagerank_deterministic_witness :
    (iterate_pagerank ([(0, [1]), (1, [0])] : Corpus ℕ) (17/20) 3).getD [] =
      (iterate_pagerank ([(0, [1]), (1, [0])] : Corpus ℕ) (17/20) 5).getD [] := by
  have e3 : iterate_pagerank ([(0, [1]), (1, [0])] : Corpus ℕ) (17/20) 3 =
      some [(0, 1/2), (1, 1/2)] := by
    norm_num [iterate_pagerank, iterLoop, passOnce, newRank, lookupD, updateVal,
      ratAbs, keysOf, sumValues, List.cons_ne_nil]
  have e5 : iterate_pagerank ([(0, [1]), (1, [0])] : Corpus ℕ) (17/20) 5 =
      some [(0, 1/2), (1, 1/2)] := by
    norm_num [iterate_pagerank, iterLoop, passOnce, newRank, lookupD, updateVal,
      ratAbs, keysOf, sumValues, List.cons_ne_nil]
  cases h1 : iterate_pagerank ([(0, [1]), (1, [0])] : Corpus ℕ) (17/20) 3 with
  | none =>
    rw [e3] at h1
    exact Option.noConfusion h1
  | some r1 =>
    cases h2 : iterate_pagerank ([(0, [1]), (1, [0])] : Corpus ℕ) (17/20) 5 with
    | none =>
      rw [e5] at h2
      exact Option.noConfusion h2
    | some r2 =>
      simpa using C7_iterate_pagerank_deterministic _ _ 3 5 r1 r2 h1 h2

/-- C4: for every valid non-empty graph, whenever `sample_pagerank` or
`iterate_pagerank` returns a distribution, that distribution sums to exactly
`1` in exact arithmetic: the final renormalisation pass divides by the total,
which the error model guarantees is non-zero on the success path. -/
theorem C4_results_sum_to_one (corpus : Corpus α) (hv : ValidCorpus corpus)
    (hne : corpus ≠ []) :
    (∀ (d : ℚ) (n : ℤ) (rand : Nat → ℚ) (res : List (α × ℚ)),
        sample_pagerank corpus d n rand = some res → sumValues res = 1) ∧
    (∀ (d : ℚ) (fuel : Nat) (res : List (α × ℚ)),
        iterate_pagerank corpus d fuel = some res → sumValues res = 1) := by
  constructor
  · intro d n rand res h
    unfold sample_pagerank at h
    cases hloop : sampleLoop corpus d rand 0 n.toNat
        (corpus.map fun kv => (kv.1, (0 : ℚ))) with
    | none =>
      simp only [hloop] at h
      exact absurd h (by simp)
    | some probs =>
      simp only [hloop] at h
      by_cases hg1 : corpus ≠ [] ∧ n = 0
      · rw [if_pos hg1] at h
        exact absurd h (by simp)
      · rw [if_neg hg1] at h
        have hprobs : probs ≠ [] := by
          intro hnil
          have hk : keysOf probs = keysOf corpus := by
            rw [sampleLoop_keys corpus d rand _ _ _ _ hloop, keysOf_map_snd]
          rw [hnil] at hk
          exact hne ((keysOf_eq_nil_iff corpus).mp hk.symm)
        have hdiv : (probs.map fun kv => (kv.1, kv.2 / (n : ℚ))) ≠ [] := by
          intro hnil
          exact hprobs (List.map_eq_nil.mp hnil)
        by_cases hg2 : sumValues (probs.map fun kv => (kv.1, kv.2 / (n : ℚ))) = 0 ∧
            (probs.map fun kv => (kv.1, kv.2 / (n : ℚ))) ≠ []
        · rw [if_pos hg2] at h
          exact absurd h (by simp)
        · rw [if_neg hg2, Option.some.injEq] at h
          have htot : sumValues (probs.map fun kv => (kv.1, kv.2 / (n : ℚ))) ≠ 0 := by
            intro h0
            exact hg2 ⟨h0, hdiv⟩
          subst h
          rw [sumValues_map_div]
          exact div_self htot
  · intro d fuel res h
    unfold iterate_pagerank at h
    by_cases hlen : corpus.length = 0
    · rw [if_pos hlen] at h
      exact absurd h (by simp)
    · rw [if_neg hlen] at h
      cases hloop : iterLoop corpus d fuel (keysOf corpus)
          (corpus.map fun kv => (kv.1, 1 / (corpus.length : ℚ))) with
      | none =>
        simp only [hloop] at h
        exact absurd h (by simp)
      | some ranks =>
        simp only [hloop] at h
        by_cases ht : sumValues ranks = 0
        · rw [if_pos ht] at h
          exact absurd h (by simp)
        · rw [if_neg ht, Option.some.injEq] at h
          subst h
          rw [sumValues_map_div]
          exact div_self ht

/-- C4 witness: both estimators on the two-node cycle produce distributions
summing to `1`. -/
theorem C4_results_sum_to_one_witness :
    sumValues ((sample_pagerank ([(0, [1]), (1, [0])] : Corpus ℕ) (17/20) 1
      (fun _ => 0)).getD []) = 1 ∧
    sumValues ((iterate_pagerank ([(0, [1]), (1, [0])] : Corpus ℕ) (17/20) 3).getD []) = 1 := by
  obtain ⟨hs, hi⟩ := C4_results_sum_to_one ([(0, [1]), (1, [0])] : Corpus ℕ)
    (by decide) (by decide)
  have e2 : sample_pagerank ([(0, [1]), (1, [0])] : Corpus ℕ) (17/20) 1 (fun _ => 0) =
      some [(0, 3/40), (1, 37/40)] := by
    norm_num [sample_pagerank, sampleLoop, choiceUniform, keysOf, transition_model,
      findTargets, addInto, updateVal, lookupD, sumValues, Int.floor_zero]
  have e3 : iterate_pagerank ([(0, [1]), (1, [0])] : Corpus ℕ) (17/20) 3 =
      some [(0, 1/2), (1, 1/2)] := by
    norm_num [iterate_pagerank, iterLoop, passOnce, newRank, lookupD, updateVal,
      ratAbs, keysOf, sumValues, List.cons_ne_nil]
  constructor
  · rw [e2]
    simpa using hs (17/20) 1 (fun _ => 0) _ e2
  · rw [e3]
    simpa using hi (17/20) 3 _ e3

/-- C3: `sample_pagerank` coincides, for every non-empty graph, positive
sample count, damping factor and stream of random draws, with the estimator
the claim describes: zero accumulator, uniformly chosen first tracked node,
`sampleCount` iterations each adding the tracked node's entire transition
distribution into the accumulator and drawing the next tracked node by
weighted choice over the accumulator's current values, then division by
`sampleCount` and renormalisation. -/
theorem C3_sample_pagerank_refines_spec (corpus : Corpus α) (d : ℚ) (n : ℤ)
    (rand : Nat → ℚ) (hne : corpus ≠ []) (hn : 0 < n) :
    sample_pagerank corpus d n rand = specSampleRank corpus d n rand := by
  obtain ⟨k, hk⟩ : ∃ k, n.toNat = k + 1 := ⟨n.toNat - 1, by omega⟩
  unfold sample_pagerank specSampleRank
  rw [hk]
  cases hu : choiceUniform (keysOf (corpus.map fun kv => (kv.1, (0 : ℚ)))) (rand 0) with
  | none =>
    simp only [sampleLoop, reduceIte, hu]
  | some first =>
    simp only [sampleLoop, reduceIte, hu,
      specSampleLoop_eq_sampleLoop corpus d rand k 0 first]
    cases htr : transition_model corpus first d with
    | none => simp only [htr]
    | some dist =>
      simp only [htr]
      cases hloop : sampleLoop corpus d rand 1 k
          (addInto (corpus.map fun kv => (kv.1, (0 : ℚ))) dist) with
      | none => simp only [hloop]
      | some probs =>
        simp only [hloop]
        have hg1 : ¬(corpus ≠ [] ∧ n = 0) := by
          intro hcon
          omega
        rw [if_neg hg1]

/-- C3 witness: the refinement instantiated on the two-node cycle. -/
theorem C3_sample_pagerank_refines_spec_witness :
    sample_pagerank ([(0, [1]), (1, [0])] : Corpus ℕ) (17/20) 2 (fun _ => 0) =
      specSampleRank ([(0, [1]), (1, [0])] : Corpus ℕ) (17/20) 2 (fun _ => 0) :=
  C3_sample_pagerank_refines_spec _ _ _ _ (by decide) (by norm_num)

/-- C1 (amended): `iterate_pagerank` coincides on every input with the
claim's state machine amended by the removal-skip proviso: all nodes start
active at rank `1/N`; passes run over the active nodes in order, recomputing
each visited node's rank by the claimed formula and freezing it (permanent
removal from the active list) when the change is below `0.001`; but within a
pass, the node immediately following a just-removed node is skipped (it stays
active, unprocessed, until the next pass); the loop ends when no active nodes
remain, and the distribution is then renormalised. -/
theorem C1_amended_iterate_matches_skip_machine (corpus : Corpus α) (d : ℚ)
    (fuel : Nat) :
    iterate_pagerank corpus d fuel = specIterateSkip corpus d fuel := by
  unfold iterate_pagerank specIterateSkip
  simp only [iterLoop_eq_specLoopSkip]

/-- C1 counterexample: on the three-node corpus `0 : no targets, 1 : {2},
2 : {0,1}` (which satisfies every data-model invariant) with damping factor
`17/20`, the source's loop and the claimed full-pass state machine both
terminate but return different rank distributions: in one pass node `0`
converges and is removed, so the source skips node `1` for the rest of that
pass, while the claimed machine recomputes every active node on every pass. -/
theorem C1_counterexample :
    ValidCorpus C1corpus ∧ C1corpus ≠ [] ∧
      (iterate_pagerank C1corpus (17/20) 8).isSome = true ∧
      (specIterateAll C1corpus (17/20) 8).isSome = true ∧
      iterate_pagerank C1corpus (17/20) 8 ≠ specIterateAll C1corpus (17/20) 8 := by
  have h1 : iterate_pagerank C1corpus (17/20) 8 =
      some [(0, 11831613600/38689507711), (1, 11817891591/38689507711),
            (2, 15040002520/38689507711)] := by
    norm_num [C1corpus, iterate_pagerank, iterLoop, passOnce, newRank, lookupD,
      updateVal, ratAbs, keysOf, sumValues, List.cons_ne_nil]
  have h2 : specIterateAll C1corpus (17/20) 8 =
      some [(0, 3028893081600000000/10144406621933717099),
            (1, 3095397603899306540/10144406621933717099),
            (2, 4020115936434410559/10144406621933717099)] := by
    norm_num [C1corpus, specIterateAll, specLoopAll, specPassAll, newRank, lookupD,
      updateVal, ratAbs, keysOf, sumValues, List.cons_ne_nil]
  refine ⟨by decide, by decide, ?_, ?_, ?_⟩
  · rw [h1]
    rfl
  · rw [h2]
    rfl
  · rw [h1, h2]
    simp only [ne_eq, Option.some.injEq, List.cons.injEq, Prod.mk.injEq]
    norm_num

/-- On the corpus `0 : no targets, 1 : {0}` at damping factor `-2`, one pass
from any state on the line `rank 0 + rank 1 = 3/2` keeps both nodes active
(each node's change is exactly `3/2`, far above the threshold) and translates
the state along that line. -/
theorem passOnce_neg_two_step (x : ℚ) :
    passOnce ([(0, []), (1, [0])] : Corpus ℕ) (-2) [] [0, 1]
        [(0, x), (1, 3/2 - x)] =
      ([0, 1], [(0, x - 3/2), (1, 3/2 - (x - 3/2))]) := by
  have hnr0 : newRank ([(0, []), (1, [0])] : Corpus ℕ) (-2)
      [(0, x), (1, 3/2 - x)] 0 = x - 3/2 := by
    simp [newRank, lookupD]
    ring
  have hnr1 : newRank ([(0, []), (1, [0])] : Corpus ℕ) (-2)
      [(0, x - 3/2), (1, 3/2 - x)] 1 = 3/2 - (x - 3/2) := by
    simp [newRank, lookupD]
    ring
  have hc0 : ¬ ratAbs (newRank ([(0, []), (1, [0])] : Corpus ℕ) (-2)
      [(0, x), (1, 3/2 - x)] 0 - lookupD [(0, x), (1, 3/2 - x)] 0) < 1 / 1000 := by
    rw [hnr0]
    have harg : x - 3/2 - lookupD [(0, x), (1, 3/2 - x)] 0 = -(3/2) := by
      simp [lookupD]
    rw [harg]
    norm_num [ratAbs]
  have hup0 : updateVal [(0, x), (1, 3/2 - x)] 0
      (newRank ([(0, []), (1, [0])] : Corpus ℕ) (-2) [(0, x), (1, 3/2 - x)] 0) =
      [(0, x - 3/2), (1, 3/2 - x)] := by
    rw [hnr0]
    simp [updateVal]
  have hc1 : ¬ ratAbs (newRank ([(0, []), (1, [0])] : Corpus ℕ) (-2)
      [(0, x - 3/2), (1, 3/2 - x)] 1 - lookupD [(0, x - 3/2), (1, 3/2 - x)] 1) < 1 / 1000 := by
    rw [hnr1]
    have harg : 3/2 - (x - 3/2) - lookupD [(0, x - 3/2), (1, 3/2 - x)] 1 = 3/2 := by
      simp [lookupD]
    rw [harg]
    norm_num [ratAbs]
  have hup1 : updateVal [(0, x - 3/2), (1, 3/2 - x)] 1
      (newRank ([(0, []), (1, [0])] : Corpus ℕ) (-2) [(0, x - 3/2), (1, 3/2 - x)] 1) =
      [(0, x - 3/2), (1, 3/2 - (x - 3/2))] := by
    rw [hnr1]
    simp [updateVal]
  simp only [passOnce, hup0, if_neg hc0, hup1, if_neg hc1]
  rfl

/-- From any state on the invariant line, the loop at damping factor `-2`
exhausts every fuel bound. -/
theorem iterLoop_neg_two_none :
    ∀ (fuel : Nat) (x : ℚ),
      iterLoop ([(0, []), (1, [0])] : Corpus ℕ) (-2) fuel [0, 1]
        [(0, x), (1, 3/2 - x)] = none := by
  intro fuel
  induction fuel with
  | zero => intro x; rfl
  | succ fuel ih =>
    intro x
    rw [iterLoop, if_neg (by simp : ¬([0, 1] : List ℕ) = []),
      passOnce_neg_two_step x]
    exact ih (x - 3/2)

/-- C6: refuted.  The corpus `0 : no targets, 1 : {0}` satisfies every
data-model invariant and `-2 < 1`, yet `iterate_pagerank` at damping factor
`-2` never terminates: the first pass lands on the line
`rank 0 + rank 1 = 3/2`, and every later pass moves the state along that line
with both per-node changes equal to `3/2`, so no node ever converges and the
while loop runs forever — it is still unfinished at every fuel bound.  The
source also never validates the damping factor, although the spec requires
rejecting damping factors outside `[0,1)` as `InvalidArgument`. -/
theorem C6_nontermination_below_one :
    ValidCorpus ([(0, []), (1, [0])] : Corpus ℕ) ∧ ((-2 : ℚ) < 1) ∧
      ∀ fuel : Nat,
        iterate_pagerank ([(0, []), (1, [0])] : Corpus ℕ) (-2) fuel = none := by
  refine ⟨by decide, by norm_num, ?_⟩
  intro fuel
  have hloop : iterLoop ([(0, []), (1, [0])] : Corpus ℕ) (-2) fuel [0, 1]
      [(0, 1/2), (1, 1/2)] = none := by
    cases fuel with
    | zero => rfl
    | succ fuel =>
      have hpass1 : passOnce ([(0, []), (1, [0])] : Corpus ℕ) (-2) [] [0, 1]
          [(0, 1/2), (1, 1/2)] = ([0, 1], [(0, 0), (1, 3/2)]) := by
        norm_num [passOnce, newRank, lookupD, updateVal, ratAbs, List.cons_ne_nil]
      rw [iterLoop, if_neg (by simp : ¬([0, 1] : List ℕ) = []), hpass1]
      have h := iterLoop_neg_two_none fuel 0
      simpa using h
  have hinit : (([(0, []), (1, [0])] : Corpus ℕ).map
      fun kv => (kv.1, 1 / ((([(0, []), (1, [0])] : Corpus ℕ).length : ℕ) : ℚ))) =
      [(0, 1/2), (1, 1/2)] := by
    norm_num
  unfold iterate_pagerank
  rw [if_neg (by norm_num : ¬([(0, []), (1, [0])] : Corpus ℕ).length = 0)]
  simp only [hinit]
  have hkeys : keysOf ([(0, []), (1, [0])] : Corpus ℕ) = [0, 1] := rfl
  rw [hkeys, hloop]

end PageRank
